import Mathlib

/-!
NYC taxi trip data ETL pipeline — verification of the checkpointed
bookkeeping core.

Shallow embedding of `NYC_taxi_trip_data_ETL.py`: the metadata (checkpoint)
store `load_metadata`/`save_metadata`, the fetcher `download_new_files`, the
driver `process_files` together with `save_to_mongodb`, and the per-record
filter/derive transformation expressed in Spark.

Modelling conventions:
* Spark `DoubleType` columns are modelled as `ℚ` and `TimestampType` columns
  as `Int` unix seconds (the pipeline only ever compares and subtracts
  timestamps through `unix_timestamp`).
* Spark dataframes are modelled as lists of records; `filter`, `select` and
  `withColumn` become the corresponding list operations.
* Exceptions are modelled by per-file outcome oracles (`Bool`-valued
  functions saying whether a given call raises), and the control flow of the
  Python `try`/`except` blocks is reproduced explicitly.
* The two JSON checkpoint files are modelled down to their serialized text:
  `encodeJsonList` renders a Python list of strings the way `json.dump`
  does (`", "` item separator, `ensure_ascii` escaping), and
  `decodeJsonList` models `json.load` restricted to such documents.
-/

namespace ETL

/-! ## Trip records and the Spark transform (`process_files`, lines 96-151)

`schema_spark` declares 19 named columns; `TripRecord` carries all of them.
Integer-typed columns (`IntegerType`/`LongType`) are `Int`, `DoubleType`
columns are `ℚ`, the flag is a `String`, timestamps are unix seconds. -/

structure TripRecord where
  VendorID : Int
  tpep_pickup_datetime : Int
  tpep_dropoff_datetime : Int
  passenger_count : Int
  trip_distance : ℚ
  RatecodeID : Int
  store_and_fwd_flag : String
  PULocationID : Int
  DOLocationID : Int
  payment_type : Int
  fare_amount : ℚ
  extra : ℚ
  mta_tax : ℚ
  tip_amount : ℚ
  tolls_amount : ℚ
  improvement_surcharge : ℚ
  total_amount : ℚ
  congestion_surcharge : ℚ
  Airport_fee : ℚ
  deriving DecidableEq, Repr

/-- The 8 selected base columns plus the three derived columns produced by the
`select(...).withColumn(...)` chain.  The source column name of `tipRatio` is
`"tip_ratio"`. -/
structure TransformedRecord where
  VendorID : Int
  tpep_pickup_datetime : Int
  tpep_dropoff_datetime : Int
  trip_distance : ℚ
  PULocationID : Int
  DOLocationID : Int
  tip_amount : ℚ
  total_amount : ℚ
  trip_duration_minutes : ℚ
  tipRatio : ℚ
  distance_segment : String
  deriving DecidableEq, Repr

/-- Line 136: `spark_df.filter((col("trip_distance") > 0) & (col("total_amount") > 0))`. -/
def filterDistanceAmount (df : List TripRecord) : List TripRecord :=
  df.filter fun r => decide (0 < r.trip_distance) && decide (0 < r.total_amount)

/-- Line 137: `spark_df.filter(unix_timestamp("tpep_dropoff_datetime") > unix_timestamp("tpep_pickup_datetime"))`. -/
def filterDropoffAfterPickup (df : List TripRecord) : List TripRecord :=
  df.filter fun r => decide (r.tpep_pickup_datetime < r.tpep_dropoff_datetime)

/-- The records that reach the `select`/`withColumn` derived-field stage:
both filters applied, in source order. -/
def filteredRecords (df : List TripRecord) : List TripRecord :=
  filterDropoffAfterPickup (filterDistanceAmount df)

/-- Lines 138-151: the projection to 8 base columns and the three
`withColumn` derived fields, per record. -/
def deriveRecord (r : TripRecord) : TransformedRecord :=
  { VendorID := r.VendorID
    tpep_pickup_datetime := r.tpep_pickup_datetime
    tpep_dropoff_datetime := r.tpep_dropoff_datetime
    trip_distance := r.trip_distance
    PULocationID := r.PULocationID
    DOLocationID := r.DOLocationID
    tip_amount := r.tip_amount
    total_amount := r.total_amount
    trip_duration_minutes :=
      ((r.tpep_dropoff_datetime - r.tpep_pickup_datetime : Int) : ℚ) / 60
    tipRatio := r.tip_amount / r.total_amount
    distance_segment :=
      if r.trip_distance ≤ 2 then "short"
      else if r.trip_distance ≤ 10 then "medium"
      else "long" }

/-- The whole transform of one file: filters then derived fields. -/
def transformFile (df : List TripRecord) : List TransformedRecord :=
  (filteredRecords df).map deriveRecord

/-- A concrete trip record with the given transform-relevant fields and zeros
elsewhere; used for witnesses. -/
def mkRecord (pick drop : Int) (dist tip total : ℚ) : TripRecord :=
  { VendorID := 1, tpep_pickup_datetime := pick, tpep_dropoff_datetime := drop
    passenger_count := 1, trip_distance := dist, RatecodeID := 1
    store_and_fwd_flag := "N", PULocationID := 100, DOLocationID := 200
    payment_type := 1, fare_amount := total, extra := 0, mta_tax := 0
    tip_amount := tip, tolls_amount := 0, improvement_surcharge := 0
    total_amount := total, congestion_surcharge := 0, Airport_fee := 0 }

end ETL

namespace ETL.Json

/-! ## The JSON checkpoint files (`load_metadata` / `save_metadata`, lines 40-49)

`save_metadata` runs `json.dump(data, f)` on a Python list of strings and
`load_metadata` runs `json.load(f)`.  We model the serialized text exactly:
`encodeList` renders a list of strings the way `json.dump` does with its
defaults (item separator `", "`, `ensure_ascii=True`: `\"`, `\\`, `\b`,
`\t`, `\n`, `\f`, `\r` short escapes, `\uXXXX` with lowercase hex for other
control characters and all characters above `0x7e`, surrogate pairs beyond
the basic multilingual plane).  `decodeList` models `json.load` restricted
to the documents `json.dump` produces for lists of strings: an array of
JSON strings with optional whitespace (a lone surrogate escape, which Lean's
`Char` cannot represent, is rejected). -/

/-- Hex digit character for `n < 16`, lowercase as in Python's `"\u%04x"`. -/
def toHexDigit (n : Nat) : Char :=
  if n < 10 then Char.ofNat (48 + n) else Char.ofNat (87 + n)

/-- Value of a hex digit character (both cases), `none` otherwise. -/
def fromHexDigit (c : Char) : Option Nat :=
  if 48 ≤ c.toNat ∧ c.toNat ≤ 57 then some (c.toNat - 48)
  else if 97 ≤ c.toNat ∧ c.toNat ≤ 102 then some (c.toNat - 87)
  else if 65 ≤ c.toNat ∧ c.toNat ≤ 70 then some (c.toNat - 55)
  else none

/-- Four-digit lowercase hex rendering of `n < 65536`. -/
def toHex4 (n : Nat) : List Char :=
  [toHexDigit (n / 4096 % 16), toHexDigit (n / 256 % 16),
    toHexDigit (n / 16 % 16), toHexDigit (n % 16)]

/-- Read four hex digits off the front of the input. -/
def hex4? : List Char → Option (Nat × List Char)
  | h1 :: h2 :: h3 :: h4 :: rest =>
    (fromHexDigit h1).bind fun a =>
      (fromHexDigit h2).bind fun b =>
        (fromHexDigit h3).bind fun x =>
          (fromHexDigit h4).map fun d =>
            (4096 * a + 256 * b + 16 * x + d, rest)
  | _ => none

/-- The `json.dump` (`ensure_ascii`) escape of one character. -/
def encodeChar (c : Char) : List Char :=
  if c = '"' then ['\\', '"']
  else if c = '\\' then ['\\', '\\']
  else if c.toNat = 8 then ['\\', 'b']
  else if c.toNat = 9 then ['\\', 't']
  else if c.toNat = 10 then ['\\', 'n']
  else if c.toNat = 12 then ['\\', 'f']
  else if c.toNat = 13 then ['\\', 'r']
  else if c.toNat < 32 ∨ (127 ≤ c.toNat ∧ c.toNat < 65536) then
    '\\' :: 'u' :: toHex4 c.toNat
  else if 65536 ≤ c.toNat then
    ('\\' :: 'u' :: toHex4 (55296 + (c.toNat - 65536) / 1024)) ++
      ('\\' :: 'u' :: toHex4 (56320 + (c.toNat - 65536) % 1024))
  else [c]

/-- Escaped rendering of a string body (no surrounding quotes yet). -/
def encodeBody : List Char → List Char
  | [] => []
  | c :: cs => encodeChar c ++ encodeBody cs

/-- A JSON string: quote, escaped body, quote. -/
def encodeStr (s : List Char) : List Char :=
  '"' :: (encodeBody s ++ ['"'])

/-- Prepend a decoded character to the string built by a recursive call. -/
def consStr (c : Char) (o : Option (List Char × List Char)) :
    Option (List Char × List Char) :=
  o.map fun p => (c :: p.1, p.2)

/-- Decode a `\uXXXX` escape (input starts right after the `"\u"`),
combining a UTF-16 surrogate pair into one scalar value as `json.load`
does; a lone surrogate is rejected. -/
def decodeUni (l : List Char) : Option (Char × List Char) :=
  match hex4? l with
  | none => none
  | some (n, rest) =>
    if 55296 ≤ n ∧ n ≤ 56319 then
      match rest with
      | e2 :: u2 :: rest2 =>
        if e2 = '\\' then
          if u2 = 'u' then
            match hex4? rest2 with
            | none => none
            | some (m, rest3) =>
              if 56320 ≤ m ∧ m ≤ 57343 then
                some (Char.ofNat (65536 + 1024 * (n - 55296) + (m - 56320)), rest3)
              else none
          else none
        else none
      | _ => none
    else if 56320 ≤ n ∧ n ≤ 57343 then none
    else some (Char.ofNat n, rest)

/-- Decode one escape sequence (input starts right after the backslash). -/
def decodeEsc : List Char → Option (Char × List Char)
  | [] => none
  | e :: rest =>
    if e = '"' then some ('"', rest)
    else if e = '\\' then some ('\\', rest)
    else if e = '/' then some ('/', rest)
    else if e = 'b' then some (Char.ofNat 8, rest)
    else if e = 't' then some (Char.ofNat 9, rest)
    else if e = 'n' then some (Char.ofNat 10, rest)
    else if e = 'f' then some (Char.ofNat 12, rest)
    else if e = 'r' then some (Char.ofNat 13, rest)
    else if e = 'u' then decodeUni rest
    else none

/-- Decode one character of a JSON string body (`none` at the closing quote,
at a bad escape, or at the end of input). -/
def decodeStep : List Char → Option (Char × List Char)
  | [] => none
  | c :: rest =>
    if c = '"' then none
    else if c = '\\' then decodeEsc rest
    else some (c, rest)

theorem hex4?_length {l : List Char} {n : Nat} {r : List Char}
    (h : hex4? l = some (n, r)) : r.length + 4 = l.length := by
  match l with
  | [] | [_] | [_, _] | [_, _, _] => simp [hex4?] at h
  | h1 :: h2 :: h3 :: h4 :: rest =>
    simp only [hex4?, Option.bind_eq_some, Option.map_eq_some',
      Prod.mk.injEq] at h
    obtain ⟨a, -, b, -, x, -, d, -, -, rfl⟩ := h
    simp

theorem decodeUni_length {l : List Char} {ch : Char} {r : List Char}
    (h : decodeUni l = some (ch, r)) : r.length < l.length := by
  unfold decodeUni at h
  cases hh : hex4? l with
  | none => rw [hh] at h; exact absurd h (by simp)
  | some p =>
    obtain ⟨n, rest⟩ := p
    have hlen := hex4?_length hh
    rw [hh] at h
    simp only at h
    by_cases hs : 55296 ≤ n ∧ n ≤ 56319
    · rw [if_pos hs] at h
      match rest, hlen with
      | [], _ => exact absurd h (by simp)
      | [_], _ => exact absurd h (by simp)
      | e2 :: u2 :: rest2, hlen =>
        simp only at h
        by_cases he2 : e2 = '\\'
        · rw [if_pos he2] at h
          by_cases hu2 : u2 = 'u'
          · rw [if_pos hu2] at h
            cases hh2 : hex4? rest2 with
            | none => rw [hh2] at h; exact absurd h (by simp)
            | some q =>
              obtain ⟨m, rest3⟩ := q
              have hlen2 := hex4?_length hh2
              rw [hh2] at h
              simp only at h
              by_cases hm : 56320 ≤ m ∧ m ≤ 57343
              · rw [if_pos hm] at h
                simp only [Option.some.injEq, Prod.mk.injEq] at h
                obtain ⟨-, rfl⟩ := h
                simp only [List.length_cons] at hlen
                omega
              · rw [if_neg hm] at h; exact absurd h (by simp)
          · rw [if_neg hu2] at h; exact absurd h (by simp)
        · rw [if_neg he2] at h; exact absurd h (by simp)
    · rw [if_neg hs] at h
      by_cases hs2 : 56320 ≤ n ∧ n ≤ 57343
      · rw [if_pos hs2] at h; exact absurd h (by simp)
      · rw [if_neg hs2] at h
        simp only [Option.some.injEq, Prod.mk.injEq] at h
        obtain ⟨-, rfl⟩ := h
        omega

theorem decodeEsc_length {l : List Char} {ch : Char} {r : List Char}
    (h : decodeEsc l = some (ch, r)) : r.length < l.length := by
  match l with
  | [] => simp [decodeEsc] at h
  | e :: rest =>
    simp only [decodeEsc] at h
    repeat' split at h
    all_goals
      first
      | (simp_all <;> omega)
      | (have hlen := decodeUni_length h; simp only [List.length_cons]; omega)

theorem decodeStep_length {l : List Char} {ch : Char} {r : List Char}
    (h : decodeStep l = some (ch, r)) : r.length < l.length := by
  match l with
  | [] => simp [decodeStep] at h
  | c :: rest =>
    simp only [decodeStep] at h
    split at h
    · exact absurd h (by simp)
    split at h
    · have := decodeEsc_length h; simp only [List.length_cons]; omega
    · simp_all

end ETL.Json

namespace ETL.Json

/-- Decode a JSON string body up to and including the closing quote,
returning the decoded characters and the input after the quote. -/
def decodeStringBody (l : List Char) : Option (List Char × List Char) :=
  match l with
  | [] => none
  | c :: rest =>
    if c = '"' then some ([], rest)
    else
      match h : decodeStep (c :: rest) with
      | none => none
      | some (ch, r) => consStr ch (decodeStringBody r)
termination_by l.length
decreasing_by
  exact decodeStep_length h

/-- JSON whitespace (`json.load` skips space, tab, newline, carriage return). -/
def isJsonWs (c : Char) : Bool :=
  c = ' ' || c = Char.ofNat 9 || c = Char.ofNat 10 || c = Char.ofNat 13

/-- Drop leading JSON whitespace. -/
def skipWs : List Char → List Char
  | [] => []
  | c :: rest => if isJsonWs c then skipWs rest else c :: rest

theorem skipWs_length (l : List Char) : (skipWs l).length ≤ l.length := by
  induction l with
  | nil => simp [skipWs]
  | cons c rest ih =>
    simp only [skipWs]
    split
    · exact Nat.le_trans ih (by simp)
    · simp

theorem decodeStringBody_length (l : List Char) :
    ∀ s r, decodeStringBody l = some (s, r) → r.length < l.length := by
  induction l using decodeStringBody.induct with
  | case1 => intro s r h; simp [decodeStringBody] at h
  | case2 rest =>
    intro s r h
    rw [decodeStringBody] at h
    simp only [if_pos, reduceIte, Option.some.injEq, Prod.mk.injEq] at h
    obtain ⟨-, rfl⟩ := h
    simp
  | case3 c rest hq hstep =>
    intro s r h
    rw [decodeStringBody, if_neg hq, hstep] at h
    exact absurd h (by simp)
  | case4 c rest hq ch r2 hstep ih =>
    intro s r h
    rw [decodeStringBody, if_neg hq, hstep] at h
    simp only [consStr, Option.map_eq_some'] at h
    obtain ⟨⟨s', r'⟩, hrec, heq⟩ := h
    simp only [Prod.mk.injEq] at heq
    obtain ⟨-, rfl⟩ := heq
    exact Nat.lt_trans (ih _ _ hrec) (decodeStep_length hstep)

/-- Decode a comma-separated sequence of JSON strings followed by the closing
bracket; the input starts at the opening quote of the first element. -/
def decodeElems (l : List Char) : Option (List (List Char) × List Char) :=
  match l with
  | [] => none
  | c :: rest =>
    if c = '"' then
      match h : decodeStringBody rest with
      | none => none
      | some (s, r) =>
        match h2 : skipWs r with
        | [] => none
        | d :: r2 =>
          if d = ']' then some ([s], r2)
          else if d = ',' then
            match decodeElems (skipWs r2) with
            | none => none
            | some (ss, r3) => some (s :: ss, r3)
          else none
    else none
termination_by l.length
decreasing_by
  have hr := decodeStringBody_length _ _ _ h
  have h1 := skipWs_length r
  have h2l := congrArg List.length h2
  have h3 := skipWs_length r2
  simp only [List.length_cons] at h2l ⊢
  omega

/-- Models `json.load` on a whole document that is a JSON array of strings:
optional whitespace, the array, optional trailing whitespace, end of input. -/
def decodeList (l : List Char) : Option (List (List Char)) :=
  match skipWs l with
  | [] => none
  | c :: rest =>
    if c = '[' then
      match skipWs rest with
      | [] => none
      | d :: rest2 =>
        if d = ']' then
          if (skipWs rest2).isEmpty then some [] else none
        else
          match decodeElems (d :: rest2) with
          | none => none
          | some (ss, r) => if (skipWs r).isEmpty then some ss else none
    else none

/-- The `json.dump` item list: items separated by `", "` (the default
separator Python uses when `indent` is not given). -/
def encodeItems : List (List Char) → List Char
  | [] => []
  | [s] => encodeStr s
  | s :: t :: rest => encodeStr s ++ (',' :: ' ' :: encodeItems (t :: rest))

/-- The `json.dump` rendering of a list of strings. -/
def encodeList (l : List (List Char)) : List Char :=
  '[' :: (encodeItems l ++ [']'])

/-- The `json.dump` rendering, packaged as a Lean `String`. -/
def encodeJsonList (l : List String) : String :=
  ⟨encodeList (l.map String.data)⟩

/-- The `json.load` parse of a string-array document, as Lean `String`s. -/
def decodeJsonList (s : String) : Option (List String) :=
  (decodeList s.data).map fun l => l.map String.mk

end ETL.Json

namespace ETL

/-! ## The Metadata Store (`load_metadata` / `save_metadata`, lines 40-49)

The local filesystem is a map from paths to file contents (`none` when the
file does not exist). -/

/-- A file system: path to contents. -/
def FS : Type := String → Option String

/-- Models `load_metadata` (lines 40-45): `json.load` of the file at `path`;
`FileNotFoundError` is caught and yields the empty list; any other content
is parsed (a parse failure would raise `JSONDecodeError`, modelled as
`none`). -/
def load_metadata (fs : FS) (path : String) : Option (List String) :=
  match fs path with
  | none => some []
  | some contents => Json.decodeJsonList contents

/-- Models `save_metadata` (lines 47-49): open the file at `path` in mode
`"w"` and `json.dump` the list into it. -/
def save_metadata (fs : FS) (path : String) (data : List String) : FS :=
  fun p => if p = path then some (Json.encodeJsonList data) else fs p

/-- The contents of the checkpoint file at each crash point while
`save_metadata` runs, starting from a file holding `old`:
`open(path, "w")` truncates the existing file in place (there is no
temporary file and no rename), then `json.dump` writes the serialized
text.  The model charges one state to the truncation and one to the
completed write; a finer-grained write would only add more intermediate
states between these two. -/
def saveCrashStates (old : String) (data : List String) : List String :=
  [old, "", Json.encodeJsonList data]

end ETL

namespace ETL.Json

/-! ## Round-trip of the JSON codec -/

theorem char_toNat_valid (c : Char) :
    c.toNat < 55296 ∨ (57343 < c.toNat ∧ c.toNat < 1114112) := by
  rcases c.valid with h | ⟨h1, h2⟩
  · exact Or.inl (UInt32.toNat_lt_of_lt (by decide) h)
  · exact Or.inr ⟨UInt32.lt_toNat_of_lt (by decide) h1,
      UInt32.toNat_lt_of_lt (by decide) h2⟩

theorem char_eq_ofNat {c : Char} {n : Nat} (h : c.toNat = n) :
    c = Char.ofNat n := by
  rw [← h, Char.ofNat_toNat]

theorem fromHexDigit_toHexDigit {k : Nat} (h : k < 16) :
    fromHexDigit (toHexDigit k) = some k := by
  interval_cases k <;> decide

theorem hex4?_toHex4 {n : Nat} (h : n < 65536) (s : List Char) :
    hex4? (toHex4 n ++ s) = some (n, s) := by
  have e1 : fromHexDigit (toHexDigit (n / 4096 % 16)) = some (n / 4096 % 16) :=
    fromHexDigit_toHexDigit (Nat.mod_lt _ (by norm_num))
  have e2 : fromHexDigit (toHexDigit (n / 256 % 16)) = some (n / 256 % 16) :=
    fromHexDigit_toHexDigit (Nat.mod_lt _ (by norm_num))
  have e3 : fromHexDigit (toHexDigit (n / 16 % 16)) = some (n / 16 % 16) :=
    fromHexDigit_toHexDigit (Nat.mod_lt _ (by norm_num))
  have e4 : fromHexDigit (toHexDigit (n % 16)) = some (n % 16) :=
    fromHexDigit_toHexDigit (Nat.mod_lt _ (by norm_num))
  simp only [toHex4, List.cons_append, List.nil_append, hex4?, e1, e2, e3, e4,
    Option.some_bind, Option.map_some', Option.some.injEq, Prod.mk.injEq]
  exact ⟨by omega, trivial⟩

theorem decodeUni_hex {n : Nat} (hn : n < 65536) (hns : ¬(55296 ≤ n ∧ n ≤ 56319))
    (hns2 : ¬(56320 ≤ n ∧ n ≤ 57343)) (s : List Char) :
    decodeUni (toHex4 n ++ s) = some (Char.ofNat n, s) := by
  unfold decodeUni
  rw [hex4?_toHex4 hn]
  simp only
  rw [if_neg hns, if_neg hns2]

theorem decodeUni_surrogatePair {n m : Nat} (hn : 55296 ≤ n) (hn2 : n ≤ 56319)
    (hm : 56320 ≤ m) (hm2 : m ≤ 57343) (s : List Char) :
    decodeUni (toHex4 n ++ ('\\' :: 'u' :: (toHex4 m ++ s))) =
      some (Char.ofNat (65536 + 1024 * (n - 55296) + (m - 56320)), s) := by
  unfold decodeUni
  rw [hex4?_toHex4 (by omega)]
  simp only
  rw [if_pos ⟨hn, hn2⟩]
  simp only [reduceIte]
  rw [hex4?_toHex4 (by omega)]
  simp only
  rw [if_pos ⟨hm, hm2⟩]

theorem decodeStep_encodeChar (c : Char) (s : List Char) :
    decodeStep (encodeChar c ++ s) = some (c, s) := by
  have hval := char_toNat_valid c
  by_cases h1 : c = '"'
  · subst h1; simp [encodeChar, decodeStep, decodeEsc]
  by_cases h2 : c = '\\'
  · subst h2; simp [encodeChar, decodeStep, decodeEsc]
  by_cases h3 : c.toNat = 8
  · have he : encodeChar c = ['\\', 'b'] := by
      unfold encodeChar; rw [if_neg h1, if_neg h2, if_pos h3]
    rw [he, char_eq_ofNat h3]; simp [decodeStep, decodeEsc]
  by_cases h4 : c.toNat = 9
  · have he : encodeChar c = ['\\', 't'] := by
      unfold encodeChar; rw [if_neg h1, if_neg h2, if_neg h3, if_pos h4]
    rw [he, char_eq_ofNat h4]; simp [decodeStep, decodeEsc]
  by_cases h5 : c.toNat = 10
  · have he : encodeChar c = ['\\', 'n'] := by
      unfold encodeChar; rw [if_neg h1, if_neg h2, if_neg h3, if_neg h4, if_pos h5]
    rw [he, char_eq_ofNat h5]; simp [decodeStep, decodeEsc]
  by_cases h6 : c.toNat = 12
  · have he : encodeChar c = ['\\', 'f'] := by
      unfold encodeChar
      rw [if_neg h1, if_neg h2, if_neg h3, if_neg h4, if_neg h5, if_pos h6]
    rw [he, char_eq_ofNat h6]; simp [decodeStep, decodeEsc]
  by_cases h7 : c.toNat = 13
  · have he : encodeChar c = ['\\', 'r'] := by
      unfold encodeChar
      rw [if_neg h1, if_neg h2, if_neg h3, if_neg h4, if_neg h5, if_neg h6,
        if_pos h7]
    rw [he, char_eq_ofNat h7]; simp [decodeStep, decodeEsc]
  by_cases h8 : c.toNat < 32 ∨ (127 ≤ c.toNat ∧ c.toNat < 65536)
  · have hlt : c.toNat < 65536 := by rcases h8 with h | ⟨-, h⟩ <;> omega
    have he : encodeChar c = '\\' :: 'u' :: toHex4 c.toNat := by
      unfold encodeChar
      rw [if_neg h1, if_neg h2, if_neg h3, if_neg h4, if_neg h5, if_neg h6,
        if_neg h7, if_pos h8]
    rw [he]
    simp only [List.cons_append]
    have hd : decodeStep ('\\' :: 'u' :: (toHex4 c.toNat ++ s)) =
        decodeUni (toHex4 c.toNat ++ s) := by
      simp [decodeStep, decodeEsc]
    rw [hd, decodeUni_hex hlt (by rcases hval with h | ⟨h, -⟩ <;> omega)
      (by rcases hval with h | ⟨h, -⟩ <;> omega) s, Char.ofNat_toNat]
  by_cases h9 : 65536 ≤ c.toNat
  · have hv2 : c.toNat < 1114112 := by
      rcases hval with h | ⟨-, h⟩ <;> omega
    have hhib : (c.toNat - 65536) / 1024 < 1024 := by omega
    have hlob : (c.toNat - 65536) % 1024 < 1024 := Nat.mod_lt _ (by norm_num)
    have he : encodeChar c =
        ('\\' :: 'u' :: toHex4 (55296 + (c.toNat - 65536) / 1024)) ++
          ('\\' :: 'u' :: toHex4 (56320 + (c.toNat - 65536) % 1024)) := by
      unfold encodeChar
      rw [if_neg h1, if_neg h2, if_neg h3, if_neg h4, if_neg h5, if_neg h6,
        if_neg h7, if_neg h8, if_pos h9]
    rw [he]
    simp only [List.cons_append, List.append_assoc]
    have hd : decodeStep ('\\' :: 'u' ::
        (toHex4 (55296 + (c.toNat - 65536) / 1024) ++
          ('\\' :: 'u' :: (toHex4 (56320 + (c.toNat - 65536) % 1024) ++ s)))) =
        decodeUni (toHex4 (55296 + (c.toNat - 65536) / 1024) ++
          ('\\' :: 'u' :: (toHex4 (56320 + (c.toNat - 65536) % 1024) ++ s))) := by
      simp [decodeStep, decodeEsc]
    rw [hd, decodeUni_surrogatePair (by omega) (by omega) (by omega) (by omega) s]
    have harith : 65536 + 1024 * (55296 + (c.toNat - 65536) / 1024 - 55296) +
        (56320 + (c.toNat - 65536) % 1024 - 56320) = c.toNat := by omega
    rw [harith, Char.ofNat_toNat]
  · have he : encodeChar c = [c] := by
      unfold encodeChar
      rw [if_neg h1, if_neg h2, if_neg h3, if_neg h4, if_neg h5, if_neg h6,
        if_neg h7, if_neg h8, if_neg h9]
    rw [he]
    simp [decodeStep, h1, h2]

theorem decodeStringBody_encode (c : Char) (t : List Char) :
    decodeStringBody (encodeChar c ++ t) = consStr c (decodeStringBody t) := by
  have h := decodeStep_encodeChar c t
  cases hsh : encodeChar c with
  | nil =>
    rw [hsh, List.nil_append] at h
    exact absurd (decodeStep_length h) (by omega)
  | cons d ds =>
    rw [hsh, List.cons_append] at h
    have hd : d ≠ '"' := by
      intro hdq
      subst hdq
      rw [show decodeStep ('"' :: (ds ++ t)) = none from by simp [decodeStep]] at h
      exact absurd h (by simp)
    show decodeStringBody (d :: (ds ++ t)) = consStr c (decodeStringBody t)
    rw [decodeStringBody, if_neg hd]
    split
    · next heq =>
        rw [h] at heq
        exact absurd heq (by simp)
    · next ch r heq =>
        rw [h] at heq
        simp only [Option.some.injEq, Prod.mk.injEq] at heq
        obtain ⟨rfl, rfl⟩ := heq
        rfl

theorem decodeStringBody_encodeBody (s : List Char) (r : List Char) :
    decodeStringBody (encodeBody s ++ ('"' :: r)) = some (s, r) := by
  induction s with
  | nil =>
    rw [encodeBody, List.nil_append, decodeStringBody]
    simp
  | cons c cs ih =>
    rw [encodeBody, List.append_assoc, decodeStringBody_encode, ih]
    rfl

theorem skipWs_not_ws {c : Char} (h : isJsonWs c = false) (rest : List Char) :
    skipWs (c :: rest) = c :: rest := by
  rw [skipWs, h]
  simp

theorem encodeItems_cons_shape (t : List Char) (ts : List (List Char)) :
    ∃ u, encodeItems (t :: ts) = '"' :: u := by
  cases ts with
  | nil => exact ⟨encodeBody t ++ ['"'], rfl⟩
  | cons u us =>
    exact ⟨(encodeBody t ++ ['"']) ++ (',' :: ' ' :: encodeItems (u :: us)),
      by simp [encodeItems, encodeStr]⟩

theorem decodeElems_encodeItems : ∀ (items : List (List Char)), items ≠ [] →
    ∀ r, decodeElems (encodeItems items ++ (']' :: r)) = some (items, r) := by
  intro items
  induction items with
  | nil => intro h; exact absurd rfl h
  | cons s rest ih =>
    intro _ r
    cases rest with
    | nil =>
      have hshape : encodeItems [s] ++ (']' :: r) =
          '"' :: (encodeBody s ++ ('"' :: (']' :: r))) := by
        simp [encodeItems, encodeStr]
      rw [hshape, decodeElems]
      simp only [reduceIte]
      split
      · next heq =>
          rw [decodeStringBody_encodeBody] at heq
          exact absurd heq (by simp)
      · next s2 r2 heq =>
          rw [decodeStringBody_encodeBody] at heq
          simp only [Option.some.injEq, Prod.mk.injEq] at heq
          obtain ⟨rfl, rfl⟩ := heq
          split
          · next h2 =>
              rw [skipWs_not_ws (by decide)] at h2
              exact absurd h2 (by simp)
          · next d r2 h2 =>
              rw [skipWs_not_ws (by decide)] at h2
              simp only [List.cons.injEq] at h2
              obtain ⟨rfl, rfl⟩ := h2
              rw [if_pos rfl]
    | cons t ts =>
      have hshape : encodeItems (s :: t :: ts) ++ (']' :: r) =
          '"' :: (encodeBody s ++
            ('"' :: (',' :: ' ' :: (encodeItems (t :: ts) ++ (']' :: r))))) := by
        simp [encodeItems, encodeStr]
      rw [hshape, decodeElems]
      simp only [reduceIte]
      split
      · next heq =>
          rw [decodeStringBody_encodeBody] at heq
          exact absurd heq (by simp)
      · next s2 r2 heq =>
          rw [decodeStringBody_encodeBody] at heq
          simp only [Option.some.injEq, Prod.mk.injEq] at heq
          obtain ⟨rfl, rfl⟩ := heq
          split
          · next h2 =>
              rw [skipWs_not_ws (by decide)] at h2
              exact absurd h2 (by simp)
          · next d r2 h2 =>
              rw [skipWs_not_ws (by decide)] at h2
              simp only [List.cons.injEq] at h2
              obtain ⟨rfl, rfl⟩ := h2
              rw [if_neg (by decide), if_pos rfl]
              obtain ⟨u, hu⟩ := encodeItems_cons_shape t ts
              have hsp : skipWs (' ' :: (encodeItems (t :: ts) ++ (']' :: r))) =
                  encodeItems (t :: ts) ++ (']' :: r) := by
                rw [skipWs, if_pos (by decide)]
                rw [hu, List.cons_append, skipWs_not_ws (by decide)]
              rw [hsp, ih (by simp) r]

theorem decodeList_encodeList (items : List (List Char)) :
    decodeList (encodeList items) = some items := by
  cases items with
  | nil => rfl
  | cons t ts =>
    unfold decodeList
    rw [encodeList]
    rw [skipWs_not_ws (by decide)]
    simp only [reduceIte]
    obtain ⟨u, hu⟩ := encodeItems_cons_shape t ts
    have hshape : encodeItems (t :: ts) ++ [']'] = '"' :: (u ++ [']']) := by
      rw [hu, List.cons_append]
    rw [hshape, skipWs_not_ws (by decide)]
    simp only [reduceIte]
    rw [← List.cons_append, ← hu]
    rw [show encodeItems (t :: ts) ++ [']'] =
      encodeItems (t :: ts) ++ (']' :: []) from rfl]
    rw [decodeElems_encodeItems (t :: ts) (by simp) []]
    rfl

theorem string_mk_data (s : String) : String.mk s.data = s := rfl

theorem decodeJsonList_encodeJsonList (l : List String) :
    decodeJsonList (encodeJsonList l) = some l := by
  unfold decodeJsonList encodeJsonList
  rw [show (String.mk (encodeList (l.map String.data))).data =
    encodeList (l.map String.data) from rfl]
  rw [decodeList_encodeList]
  simp only [Option.map_some', List.map_map, Option.some.injEq]
  rw [show String.mk ∘ String.data = id from rfl, List.map_id]

end ETL.Json

namespace ETL

/-! ## The Fetcher and the Pipeline Driver (lines 22-37, 52-78, 81-167, 186-187)

The driver-level model works with the checkpoint values that
`load_metadata` returns and `save_metadata` persists; the Metadata Store
round trip proved above justifies identifying the persisted checkpoint with
its list value.  Exceptions are modelled by per-file oracles. -/

/-- Line 24: `file_pattern.format(year=year, month=month)` with `{month:02d}`
zero-padding. -/
def file_pattern (year month : Nat) : String :=
  "yellow_tripdata_" ++ toString year ++ "-" ++
    (if month < 10 then "0" ++ toString month else toString month) ++ ".parquet"

/-- Line 37: `years = [2023, 2024]`. -/
def years : List Nat := [2023, 2024]

/-- The catalog the fetch loop walks (lines 58-60): all year/month pairs in
order, rendered to file names. -/
def catalog : List String :=
  years.flatMap fun y => (List.range 12).map fun m => file_pattern y (m + 1)

/-- State of `download_new_files`: the downloaded checkpoint (the in-memory
`downloaded_files` list, persisted by `save_metadata` after every appended
name, line 75-76), the set of file names present in the local folder, and
the HTTP GET requests issued so far. -/
structure FetchState where
  downloadedCk : List String
  disk : List String
  requests : List String
  deriving Repr, DecidableEq

/-- One iteration of the download loop (lines 58-78) for entry `name`:
skip when the name is recorded in the downloaded checkpoint or the local
file exists (line 64); otherwise issue `requests.get` (line 70) and, when
it succeeds, write the file and record the name (lines 72-76).  A failed
request is caught at line 77 and the loop continues. -/
def fetchOne (http : String → Bool) (st : FetchState) (name : String) :
    FetchState :=
  if name ∈ st.downloadedCk ∨ name ∈ st.disk then st
  else
    let st2 : FetchState :=
      { st with requests := st.requests ++ [name] }
    if http name then
      { st2 with disk := st2.disk ++ [name],
                 downloadedCk := st2.downloadedCk ++ [name] }
    else st2

/-- Models `download_new_files` (lines 52-78) starting from the loaded
downloaded checkpoint `downloaded0` and the files `disk0` on disk. -/
def download_new_files (http : String → Bool) (downloaded0 disk0 : List String) :
    FetchState :=
  catalog.foldl (fetchOne http) ⟨downloaded0, disk0, []⟩

/-- Per-file outcome oracles for one execution of the script:
`http name` says whether the GET for `name` succeeds; `sparkFails f` whether
the Spark read/transform calls in the loop body raise (lines 129-151);
`mongoFullSuccess f` whether the `insert_many` inside `save_to_mongodb`
inserts every document (lines 179-180) — when false, the raised exception is
caught by `save_to_mongodb`'s own handler (line 182); `saveFails f` whether
`save_metadata` for the processed checkpoint raises (line 165). -/
structure RunOracle where
  http : String → Bool
  sparkFails : String → Bool
  mongoFullSuccess : String → Bool
  saveFails : String → Bool

/-- State of `process_files`: the in-memory `processed_files` list, the
persisted processed checkpoint, the files whose loop body was entered, and
the files whose documents were all inserted into the collection. -/
structure ProcState where
  memProcessed : List String
  processedCk : List String
  attempted : List String
  loaded : List String
  deriving Repr, DecidableEq

/-- Models `save_to_mongodb` (lines 170-183): the whole body sits in a
`try` whose `except Exception` only prints, so the function returns normally
whether or not the insert succeeded; only the collection contents reflect
the outcome. -/
def save_to_mongodb (o : RunOracle) (file : String) (loaded : List String) :
    List String :=
  if o.mongoFullSuccess file then loaded ++ [file] else loaded

/-- One iteration of the processing loop (lines 118-167) for `file`: on a
Spark exception the per-file handler (line 166) logs and the loop moves on;
otherwise `save_to_mongodb` runs (and never raises), the file is appended to
`processed_files` (line 164), and `save_metadata` persists it (line 165) —
a `save_metadata` exception is caught by the same per-file handler, leaving
the persisted checkpoint unchanged but the in-memory list already grown. -/
def processOne (o : RunOracle) (st : ProcState) (file : String) : ProcState :=
  let st0 : ProcState := { st with attempted := st.attempted ++ [file] }
  if o.sparkFails file then st0
  else
    let st1 : ProcState := { st0 with loaded := save_to_mongodb o file st0.loaded }
    let mem : List String := st1.memProcessed ++ [file]
    if o.saveFails file then { st1 with memProcessed := mem }
    else { st1 with memProcessed := mem, processedCk := mem }

/-- Line 87: the pending files, in downloaded (catalog) order. -/
def to_process_files (downloaded processed : List String) : List String :=
  downloaded.filter fun f => decide (f ∉ processed)

/-- Models `process_files` (lines 81-167) given the two loaded checkpoints. -/
def process_files (o : RunOracle) (downloaded processed : List String) :
    ProcState :=
  (to_process_files downloaded processed).foldl (processOne o)
    ⟨processed, processed, [], []⟩

/-- Every intermediate state of the download loop, initial state included. -/
def fetchTrace (http : String → Bool) (downloaded0 disk0 : List String) :
    List FetchState :=
  catalog.scanl (fetchOne http) ⟨downloaded0, disk0, []⟩

/-- Every intermediate state of the processing loop, initial state included. -/
def processTrace (o : RunOracle) (downloaded processed : List String) :
    List ProcState :=
  (to_process_files downloaded processed).scanl (processOne o)
    ⟨processed, processed, [], []⟩

/-- Every persisted (downloaded checkpoint, processed checkpoint) pair
observable while the script runs `download_new_files()` then
`process_files()` (lines 186-187): during the fetch phase the processed
checkpoint keeps its initial value; during the processing phase the
downloaded checkpoint keeps the value the fetch left. -/
def runCheckpointTrace (o : RunOracle) (d0 disk0 p0 : List String) :
    List (List String × List String) :=
  (fetchTrace o.http d0 disk0).map (fun fs => (fs.downloadedCk, p0)) ++
    (processTrace o (download_new_files o.http d0 disk0).downloadedCk p0).map
      (fun ps => ((download_new_files o.http d0 disk0).downloadedCk,
        ps.processedCk))

/-- The persisted world across executions of the script: the two
checkpoints and the files on disk. -/
structure WorldState where
  downloadedCk : List String
  processedCk : List String
  disk : List String
  deriving Repr, DecidableEq

/-- One full execution of the script (lines 186-187): `download_new_files`
then `process_files` (which re-loads the downloaded checkpoint, line 85). -/
def pipelineRun (o : RunOracle) (w : WorldState) : WorldState :=
  { downloadedCk := (download_new_files o.http w.downloadedCk w.disk).downloadedCk
    processedCk := (process_files o
      (download_new_files o.http w.downloadedCk w.disk).downloadedCk
      w.processedCk).processedCk
    disk := (download_new_files o.http w.downloadedCk w.disk).disk }

/-- A sequence of executions of the script, each with its own outcomes. -/
def pipelineRuns : List RunOracle → WorldState → WorldState
  | [], w => w
  | o :: os, w => pipelineRuns os (pipelineRun o w)

end ETL

namespace ETL

/-! ## Claim theorems -/

theorem mem_filteredRecords {df : List TripRecord} {r : TripRecord} :
    r ∈ filteredRecords df ↔
      r ∈ df ∧ 0 < r.trip_distance ∧ 0 < r.total_amount ∧
        r.tpep_pickup_datetime < r.tpep_dropoff_datetime := by
  simp only [filteredRecords, filterDropoffAfterPickup, filterDistanceAmount,
    List.mem_filter, Bool.and_eq_true, decide_eq_true_eq]
  tauto

/-- C7: Every record reaching the derived-field stage passed both
pre-filters, so `trip_distance > 0`, `total_amount > 0` and
`dropoff > pickup` hold there; in particular the `tip_ratio` denominator is
nonzero, and a record with `total_amount = 0` or `dropoff ≤ pickup` never
reaches the derived-field stage. -/
theorem filteredRecords_sound (df : List TripRecord) :
    (∀ r ∈ filteredRecords df,
        0 < r.trip_distance ∧ 0 < r.total_amount ∧
          r.tpep_pickup_datetime < r.tpep_dropoff_datetime ∧
          r.total_amount ≠ 0) ∧
    (∀ r ∈ df, r.total_amount = 0 ∨
        r.tpep_dropoff_datetime ≤ r.tpep_pickup_datetime →
        r ∉ filteredRecords df) := by
  constructor
  · intro r hr
    rcases mem_filteredRecords.mp hr with ⟨-, hd, ht, hts⟩
    exact ⟨hd, ht, hts, ne_of_gt ht⟩
  · rintro r - h hmem
    rcases mem_filteredRecords.mp hmem with ⟨-, -, ht, hts⟩
    rcases h with h | h
    · exact absurd h (ne_of_gt ht)
    · omega

theorem filteredRecords_sound_witness :
    (∀ r ∈ filteredRecords [mkRecord 0 125 (3/2) 2 10, mkRecord 0 0 1 0 0],
        0 < r.trip_distance ∧ 0 < r.total_amount ∧
          r.tpep_pickup_datetime < r.tpep_dropoff_datetime ∧
          r.total_amount ≠ 0) ∧
    ((mkRecord 0 0 1 0 0) ∈ [mkRecord 0 125 (3/2) 2 10, mkRecord 0 0 1 0 0] ∧
      (mkRecord 0 0 1 0 0) ∉
        filteredRecords [mkRecord 0 125 (3/2) 2 10, mkRecord 0 0 1 0 0]) := by
  refine ⟨(filteredRecords_sound _).1, by simp,
    (filteredRecords_sound [mkRecord 0 125 (3/2) 2 10, mkRecord 0 0 1 0 0]).2
      (mkRecord 0 0 1 0 0) (by simp) (Or.inl rfl)⟩

/-- C8: Each output record's derived fields obey the spec formulas:
duration is the timestamp difference in seconds over 60, `tip_ratio` is
`tip_amount / total_amount`, and the distance segment is `"short"` for
distance ≤ 2, `"medium"` for ≤ 10, `"long"` otherwise; instantiated on the
spec's concrete record (pickup `T = 0`, dropoff `T + 125`, distance 1.5,
tip 2.0, total 10.0) the outputs are 25/12 ≈ 2.0833, `"short"`, 0.2. -/
theorem transformFile_derived_fields (df : List TripRecord)
    (out : TransformedRecord) (hout : out ∈ transformFile df) :
    (∃ r ∈ filteredRecords df, out = deriveRecord r ∧
      out.trip_duration_minutes =
        ((r.tpep_dropoff_datetime - r.tpep_pickup_datetime : Int) : ℚ) / 60 ∧
      out.tipRatio = r.tip_amount / r.total_amount ∧
      (r.trip_distance ≤ 2 → out.distance_segment = "short") ∧
      (2 < r.trip_distance → r.trip_distance ≤ 10 →
        out.distance_segment = "medium") ∧
      (10 < r.trip_distance → out.distance_segment = "long")) ∧
    ((deriveRecord (mkRecord 0 125 (3/2) 2 10)).trip_duration_minutes = 25/12 ∧
      |(deriveRecord (mkRecord 0 125 (3/2) 2 10)).trip_duration_minutes
        - 20833/10000| < 1/10000 ∧
      (deriveRecord (mkRecord 0 125 (3/2) 2 10)).distance_segment = "short" ∧
      (deriveRecord (mkRecord 0 125 (3/2) 2 10)).tipRatio = 1/5) := by
  refine ⟨?_, by norm_num [deriveRecord, mkRecord], ?_, ?_, ?_⟩
  case refine_2 => norm_num [deriveRecord, mkRecord, abs_lt]
  · rcases List.mem_map.mp hout with ⟨r, hr, hderiv⟩
    refine ⟨r, hr, hderiv.symm, ?_, ?_, ?_, ?_, ?_⟩ <;>
      subst hderiv <;> simp only [deriveRecord]
    · intro h; simp [h]
    · intro h1 h2; rw [if_neg (by linarith), if_pos h2]
    · intro h; rw [if_neg (by linarith), if_neg (by linarith)]
  · norm_num [deriveRecord, mkRecord]
  · norm_num [deriveRecord, mkRecord]

theorem transformFile_derived_fields_witness :
    (deriveRecord (mkRecord 0 125 (3/2) 2 10)) ∈
        transformFile [mkRecord 0 125 (3/2) 2 10] ∧
    ((deriveRecord (mkRecord 0 125 (3/2) 2 10)).trip_duration_minutes = 25/12 ∧
      (deriveRecord (mkRecord 0 125 (3/2) 2 10)).tipRatio = 1/5) := by
  have hmem : (mkRecord 0 125 (3/2) 2 10) ∈
      filteredRecords [mkRecord 0 125 (3/2) 2 10] :=
    mem_filteredRecords.mpr ⟨by simp, by norm_num [mkRecord], by
      norm_num [mkRecord], by norm_num [mkRecord]⟩
  have hout : (deriveRecord (mkRecord 0 125 (3/2) 2 10)) ∈
      transformFile [mkRecord 0 125 (3/2) 2 10] :=
    List.mem_map_of_mem deriveRecord hmem
  have h := transformFile_derived_fields [mkRecord 0 125 (3/2) 2 10]
    (deriveRecord (mkRecord 0 125 (3/2) 2 10)) hout
  exact ⟨hout, h.2.1, h.2.2.2.2⟩

end ETL

namespace ETL

/-! ## Generic loop-invariant helpers -/

theorem foldl_invariant {α β : Type} (f : β → α → β) (P : β → Prop)
    (Q : α → Prop) (hstep : ∀ b a, Q a → P b → P (f b a)) :
    ∀ (l : List α), (∀ a ∈ l, Q a) → ∀ b, P b → P (l.foldl f b) := by
  intro l
  induction l with
  | nil => intro _ b hb; simpa using hb
  | cons a as ih =>
    intro hQ b hb
    rw [List.foldl_cons]
    exact ih (fun x hx => hQ x (List.mem_cons_of_mem a hx)) _
      (hstep b a (hQ a (List.mem_cons_self a as)) hb)

theorem scanl_invariant {α β : Type} (f : β → α → β) (P : β → Prop)
    (Q : α → Prop) (hstep : ∀ b a, Q a → P b → P (f b a)) :
    ∀ (l : List α), (∀ a ∈ l, Q a) → ∀ b, P b →
      ∀ st ∈ List.scanl f b l, P st := by
  intro l
  induction l with
  | nil =>
    intro _ b hb st hst
    rw [List.scanl_nil, List.mem_singleton] at hst
    rwa [hst]
  | cons a as ih =>
    intro hQ b hb st hst
    rw [List.scanl_cons] at hst
    rcases List.mem_cons.mp hst with rfl | h
    · exact hb
    · exact ih (fun x hx => hQ x (List.mem_cons_of_mem a hx)) (f b a)
        (hstep b a (hQ a (List.mem_cons_self a as)) hb) st h

/-! ## Claim theorems for the Metadata Store -/

/-- C6: For every file system, checkpoint path and list of file-name
strings, `save_metadata` followed by `load_metadata` on the same path
returns exactly the saved list — hence an equal set of strings, whatever
the insertion order and multiplicity (empty, singleton, or any other
list). -/
theorem save_then_load_roundtrip (fs : FS) (path : String)
    (data : List String) :
    load_metadata (save_metadata fs path data) path = some data ∧
    ∀ x, x ∈ (load_metadata (save_metadata fs path data) path).getD [] ↔
      x ∈ data := by
  have h : load_metadata (save_metadata fs path data) path = some data := by
    show (match (if path = path then some (Json.encodeJsonList data)
        else fs path) with
      | none => some []
      | some contents => Json.decodeJsonList contents) = some data
    rw [if_pos rfl]
    exact Json.decodeJsonList_encodeJsonList data
  refine ⟨h, fun x => by rw [h]; rfl⟩

theorem encodeJsonList_ne_empty (l : List String) :
    Json.encodeJsonList l ≠ "" := by
  intro h
  have hd := congrArg String.data h
  rw [show ("" : String).data = [] from rfl] at hd
  simp [Json.encodeJsonList, Json.encodeList] at hd

/-- C4 counterexample: saving the two-entry checkpoint over a file holding
the one-entry checkpoint passes through an on-disk state (the truncated
empty file) that is neither the old nor the new serialized set, so a crash
there loses both. -/
theorem save_metadata_not_atomic_cex :
    "" ∈ saveCrashStates
        (Json.encodeJsonList ["yellow_tripdata_2023-01.parquet"])
        ["yellow_tripdata_2023-01.parquet", "yellow_tripdata_2023-02.parquet"] ∧
    "" ≠ Json.encodeJsonList ["yellow_tripdata_2023-01.parquet"] ∧
    "" ≠ Json.encodeJsonList
        ["yellow_tripdata_2023-01.parquet", "yellow_tripdata_2023-02.parquet"] := by
  refine ⟨by simp [saveCrashStates], ?_, ?_⟩
  · exact fun h => encodeJsonList_ne_empty _ h.symm
  · exact fun h => encodeJsonList_ne_empty _ h.symm

/-- C4 amended: `save_metadata` overwrites the checkpoint file in place —
`open(path, "w")` truncates it and `json.dump` then writes the new text,
with no temporary file and no rename — so for every old and new checkpoint
the crash states include the truncated empty file, which differs from both
the old and the new serialized set; only after the final write does the
file hold the new set. -/
theorem save_metadata_crash_states (oldData newData : List String) :
    "" ∈ saveCrashStates (Json.encodeJsonList oldData) newData ∧
    "" ≠ Json.encodeJsonList oldData ∧
    "" ≠ Json.encodeJsonList newData ∧
    (saveCrashStates (Json.encodeJsonList oldData) newData).getLast? =
      some (Json.encodeJsonList newData) := by
  refine ⟨by simp [saveCrashStates],
    fun h => encodeJsonList_ne_empty _ h.symm,
    fun h => encodeJsonList_ne_empty _ h.symm, ?_⟩
  rfl

end ETL

namespace ETL

/-! ## Claim theorems for the Fetcher and Driver -/

theorem foldl_processOne_attempted (o : RunOracle) :
    ∀ (l : List String) (st : ProcState),
      (l.foldl (processOne o) st).attempted = st.attempted ++ l := by
  intro l
  induction l with
  | nil => intro st; simp
  | cons f fs ih =>
    intro st
    have hone : (processOne o st f).attempted = st.attempted ++ [f] := by
      simp only [processOne]
      split
      · rfl
      · split <;> rfl
    rw [List.foldl_cons, ih, hone, List.append_assoc]
    rfl

theorem mem_to_process_files {f : String} {downloaded processed : List String}
    (h : f ∈ to_process_files downloaded processed) : f ∈ downloaded := by
  unfold to_process_files at h
  exact List.mem_of_mem_filter h

theorem process_files_attempted (o : RunOracle)
    (downloaded processed : List String) :
    (process_files o downloaded processed).attempted =
      to_process_files downloaded processed := by
  rw [process_files, foldl_processOne_attempted]
  rfl

/-- C5: an entry whose name is already in the downloaded checkpoint — or
whose file already exists locally — is skipped without any HTTP request;
hence when every catalog entry is already recorded the fetch run issues
zero requests. -/
theorem fetch_idempotent (http : String → Bool) (d0 disk0 : List String) :
    (∀ name, name ∈ d0 ∨ name ∈ disk0 →
      name ∉ (download_new_files http d0 disk0).requests) ∧
    ((∀ name ∈ catalog, name ∈ d0) →
      (download_new_files http d0 disk0).requests = []) := by
  constructor
  · intro name hname
    have hinv := foldl_invariant (fetchOne http)
      (fun st => (∀ x ∈ d0, x ∈ st.downloadedCk) ∧
        (∀ x ∈ disk0, x ∈ st.disk) ∧ name ∉ st.requests)
      (fun _ => True)
      (by
        rintro st a - ⟨hd, hdi, hreq⟩
        simp only [fetchOne]
        split
        · exact ⟨hd, hdi, hreq⟩
        · next hcond =>
          have hne : name ≠ a := by
            rintro rfl
            rcases hname with h | h
            · exact hcond (Or.inl (hd _ h))
            · exact hcond (Or.inr (hdi _ h))
          split
          · exact ⟨fun x hx => by simp [hd x hx],
              fun x hx => by simp [hdi x hx], by simp [hreq, hne]⟩
          · exact ⟨hd, hdi, by simp [hreq, hne]⟩)
      catalog (fun _ _ => trivial) ⟨d0, disk0, []⟩
      ⟨fun x h => h, fun x h => h, by simp⟩
    exact hinv.2.2
  · intro hall
    have hinv := foldl_invariant (fetchOne http)
      (fun st => (∀ x ∈ d0, x ∈ st.downloadedCk) ∧ st.requests = [])
      (fun a => a ∈ d0)
      (by
        rintro st a ha ⟨hd, hreq⟩
        simp only [fetchOne]
        rw [if_pos (Or.inl (hd _ ha))]
        exact ⟨hd, hreq⟩)
      catalog hall ⟨d0, disk0, []⟩ ⟨fun x h => h, rfl⟩
    exact hinv.2

theorem fetch_idempotent_witness :
    file_pattern 2023 1 ∈ catalog ∧
    file_pattern 2023 1 ∉
      (download_new_files (fun _ => true) catalog []).requests ∧
    (download_new_files (fun _ => true) catalog []).requests = [] := by
  have h := fetch_idempotent (fun _ => true) catalog []
  have hmem : file_pattern 2023 1 ∈ catalog := by decide
  exact ⟨hmem, h.1 _ (Or.inl hmem), h.2 (fun n hn => hn)⟩

theorem fetch_preserves_unrecorded (http : String → Bool) (name : String)
    (d0 disk0 : List String) (hd : name ∈ disk0) (hn : name ∉ d0) :
    name ∈ (download_new_files http d0 disk0).disk ∧
    name ∉ (download_new_files http d0 disk0).downloadedCk ∧
    name ∉ (download_new_files http d0 disk0).requests := by
  exact foldl_invariant (fetchOne http)
    (fun st => name ∈ st.disk ∧ name ∉ st.downloadedCk ∧ name ∉ st.requests)
    (fun _ => True)
    (by
      rintro st a - ⟨h1, h2, h3⟩
      simp only [fetchOne]
      split
      · exact ⟨h1, h2, h3⟩
      · next hcond =>
        have hne : name ≠ a := by
          rintro rfl
          exact hcond (Or.inr h1)
        split
        · exact ⟨by simp [h1], by simp [h2, hne], by simp [h3, hne]⟩
        · exact ⟨h1, h2, by simp [h3, hne]⟩)
    catalog (fun _ _ => trivial) ⟨d0, disk0, []⟩ ⟨hd, hn, by simp⟩

theorem pipelineRun_disk (o : RunOracle) (w : WorldState) :
    (pipelineRun o w).disk =
      (download_new_files o.http w.downloadedCk w.disk).disk := by
  simp only [pipelineRun]

theorem pipelineRun_downloadedCk (o : RunOracle) (w : WorldState) :
    (pipelineRun o w).downloadedCk =
      (download_new_files o.http w.downloadedCk w.disk).downloadedCk := by
  simp only [pipelineRun]

theorem pipelineRun_processedCk (o : RunOracle) (w : WorldState) :
    (pipelineRun o w).processedCk =
      (process_files o
        (download_new_files o.http w.downloadedCk w.disk).downloadedCk
        w.processedCk).processedCk := by
  simp only [pipelineRun]

theorem pipelineRuns_preserve_unrecorded (name : String)
    (os : List RunOracle) (w0 : WorldState)
    (hd : name ∈ w0.disk) (hn : name ∉ w0.downloadedCk) :
    name ∈ (pipelineRuns os w0).disk ∧
    name ∉ (pipelineRuns os w0).downloadedCk := by
  induction os generalizing w0 with
  | nil => exact ⟨hd, hn⟩
  | cons o os ih =>
    have h1 := fetch_preserves_unrecorded o.http name
      w0.downloadedCk w0.disk hd hn
    have hd2 : name ∈ (pipelineRun o w0).disk := by
      rw [pipelineRun_disk]; exact h1.1
    have hn2 : name ∉ (pipelineRun o w0).downloadedCk := by
      rw [pipelineRun_downloadedCk]; exact h1.2.1
    exact ih (pipelineRun o w0) hd2 hn2

/-- C10: a file that exists locally but whose name is missing from the
downloaded checkpoint is skipped by every fetch run, never requested and
never added to the checkpoint; since `process_files` draws its candidates
from the downloaded checkpoint only, the file is never among the attempted
(transformed/loaded) files, in the first run or any later one. -/
theorem unrecorded_local_file_never_processed (name : String)
    (os : List RunOracle) (o : RunOracle) (w0 : WorldState)
    (hdisk : name ∈ w0.disk) (hnd : name ∉ w0.downloadedCk) :
    (name ∈ (pipelineRuns os w0).disk ∧
      name ∉ (pipelineRuns os w0).downloadedCk) ∧
    (name ∉ (download_new_files o.http (pipelineRuns os w0).downloadedCk
        (pipelineRuns os w0).disk).requests ∧
      name ∉ (download_new_files o.http (pipelineRuns os w0).downloadedCk
        (pipelineRuns os w0).disk).downloadedCk ∧
      name ∉ (process_files o
        (download_new_files o.http (pipelineRuns os w0).downloadedCk
          (pipelineRuns os w0).disk).downloadedCk
        (pipelineRuns os w0).processedCk).attempted) := by
  have hw := pipelineRuns_preserve_unrecorded name os w0 hdisk hnd
  have hf := fetch_preserves_unrecorded o.http name
    (pipelineRuns os w0).downloadedCk (pipelineRuns os w0).disk hw.1 hw.2
  refine ⟨hw, hf.2.2, hf.2.1, ?_⟩
  rw [process_files_attempted]
  intro hmem
  exact hf.2.1 (mem_to_process_files hmem)

theorem unrecorded_local_file_never_processed_witness :
    ("f" ∈ ["f"] ∧ "f" ∉ ([] : List String)) ∧
    (("f" ∈ (pipelineRuns [] ⟨[], [], ["f"]⟩).disk ∧
      "f" ∉ (pipelineRuns [] ⟨[], [], ["f"]⟩).downloadedCk) ∧
    ("f" ∉ (download_new_files (fun _ => true)
        (pipelineRuns [] ⟨[], [], ["f"]⟩).downloadedCk
        (pipelineRuns [] ⟨[], [], ["f"]⟩).disk).requests ∧
      "f" ∉ (download_new_files (fun _ => true)
        (pipelineRuns [] ⟨[], [], ["f"]⟩).downloadedCk
        (pipelineRuns [] ⟨[], [], ["f"]⟩).disk).downloadedCk ∧
      "f" ∉ (process_files ⟨fun _ => true, fun _ => false, fun _ => true,
          fun _ => false⟩
        (download_new_files (fun _ => true)
          (pipelineRuns [] ⟨[], [], ["f"]⟩).downloadedCk
          (pipelineRuns [] ⟨[], [], ["f"]⟩).disk).downloadedCk
        (pipelineRuns [] ⟨[], [], ["f"]⟩).processedCk).attempted)) :=
  ⟨⟨by simp, by simp⟩,
    unrecorded_local_file_never_processed "f" []
      ⟨fun _ => true, fun _ => false, fun _ => true, fun _ => false⟩
      ⟨[], [], ["f"]⟩ (by simp) (by simp)⟩

end ETL

namespace ETL

theorem fetch_downloadedCk_superset (http : String → Bool)
    (d0 disk0 : List String) :
    ∀ x ∈ d0, x ∈ (download_new_files http d0 disk0).downloadedCk := by
  refine foldl_invariant (fetchOne http)
    (fun st => ∀ x ∈ d0, x ∈ st.downloadedCk) (fun _ => True) ?_ catalog
    (fun _ _ => trivial) ⟨d0, disk0, []⟩ (fun x h => h)
  rintro st a - hst
  simp only [fetchOne]
  split
  · exact hst
  · split
    · intro y hy; simp [hst y hy]
    · exact hst

/-- C2: at every point during a run — over the whole fetch phase and after
every iteration of the processing loop — the persisted processed checkpoint
is a subset of the persisted downloaded checkpoint, provided it was at the
start: processing appends only names drawn from the downloaded checkpoint,
and fetching only grows the downloaded checkpoint. -/
theorem processed_subset_downloaded (o : RunOracle)
    (d0 disk0 p0 : List String) (hinit : ∀ x ∈ p0, x ∈ d0) :
    ∀ cp ∈ runCheckpointTrace o d0 disk0 p0, ∀ x ∈ cp.2, x ∈ cp.1 := by
  intro cp hcp
  rw [runCheckpointTrace, List.mem_append] at hcp
  rcases hcp with hcp | hcp
  · rcases List.mem_map.mp hcp with ⟨fs, hfs, rfl⟩
    intro x hx
    rw [fetchTrace] at hfs
    have hsub : ∀ y ∈ d0, y ∈ fs.downloadedCk := by
      refine scanl_invariant (fetchOne o.http)
        (fun st => ∀ y ∈ d0, y ∈ st.downloadedCk) (fun _ => True) ?_ catalog
        (fun _ _ => trivial) ⟨d0, disk0, []⟩ (fun y hy => hy) fs hfs
      rintro st a - hst
      simp only [fetchOne]
      split
      · exact hst
      · split
        · intro y hy; simp [hst y hy]
        · exact hst
    exact hsub x (hinit x hx)
  · rcases List.mem_map.mp hcp with ⟨ps, hps, rfl⟩
    intro x hx
    rw [processTrace] at hps
    have hd0D : ∀ y ∈ d0, y ∈ (download_new_files o.http d0 disk0).downloadedCk :=
      fetch_downloadedCk_superset o.http d0 disk0
    have hinv := scanl_invariant (processOne o)
      (fun st =>
        (∀ y ∈ st.memProcessed,
          y ∈ (download_new_files o.http d0 disk0).downloadedCk) ∧
        (∀ y ∈ st.processedCk,
          y ∈ (download_new_files o.http d0 disk0).downloadedCk))
      (fun f => f ∈ (download_new_files o.http d0 disk0).downloadedCk)
      (by
        rintro st f hfD ⟨h1, h2⟩
        simp only [processOne, save_to_mongodb]
        split
        · exact ⟨h1, h2⟩
        · have hmem : ∀ y ∈ st.memProcessed ++ [f],
              y ∈ (download_new_files o.http d0 disk0).downloadedCk := by
            intro y hy
            rcases List.mem_append.mp hy with hy | hy
            · exact h1 y hy
            · rw [List.mem_singleton] at hy; subst hy; exact hfD
          split
          · exact ⟨hmem, h2⟩
          · exact ⟨hmem, hmem⟩)
      (to_process_files (download_new_files o.http d0 disk0).downloadedCk p0)
      (fun f hf => mem_to_process_files hf) ⟨p0, p0, [], []⟩
      ⟨fun y hy => hd0D y (hinit y hy), fun y hy => hd0D y (hinit y hy)⟩
      ps hps
    have hx2 : x ∈ ps.processedCk := hx
    simpa using hinv.2 x hx2

theorem processed_subset_downloaded_witness :
    (∀ x ∈ ["a"], x ∈ ["a", "b"]) ∧
    (∀ cp ∈ runCheckpointTrace
        ⟨fun _ => true, fun _ => false, fun _ => true, fun _ => false⟩
        ["a", "b"] [] ["a"], ∀ x ∈ cp.2, x ∈ cp.1) :=
  ⟨by simp, processed_subset_downloaded
    ⟨fun _ => true, fun _ => false, fun _ => true, fun _ => false⟩
    ["a", "b"] [] ["a"] (by simp)⟩

theorem process_marks_success (o : RunOracle) (l1 l2 : List String)
    (b : String) (st : ProcState) (hbspark : o.sparkFails b = false)
    (hbsave : o.saveFails b = false) :
    b ∈ ((l1 ++ b :: l2).foldl (processOne o) st).memProcessed ∧
    b ∈ ((l1 ++ b :: l2).foldl (processOne o) st).processedCk := by
  rw [List.foldl_append, List.foldl_cons]
  refine foldl_invariant (processOne o)
    (fun s => b ∈ s.memProcessed ∧ b ∈ s.processedCk) (fun _ => True) ?_ l2
    (fun _ _ => trivial) _ ?_
  · rintro s a - ⟨h1, h2⟩
    simp only [processOne, save_to_mongodb]
    split
    · exact ⟨h1, h2⟩
    · split
      · exact ⟨by simp [h1], h2⟩
      · exact ⟨by simp [h1], by simp [h1]⟩
  · simp [processOne, save_to_mongodb, hbspark, hbsave]

/-- C9: an exception while transforming or loading one file is caught by the
per-file handler, so every pending file is still attempted; a later file
whose own transform, load and checkpoint save succeed is marked processed,
whatever happened to the earlier file. -/
theorem failure_isolation (o : RunOracle) (downloaded processed : List String)
    (a b : String) (ha : a ∈ to_process_files downloaded processed)
    (hb : b ∈ to_process_files downloaded processed)
    (hafail : o.sparkFails a = true) (hbspark : o.sparkFails b = false)
    (hbmongo : o.mongoFullSuccess b = true) (hbsave : o.saveFails b = false) :
    b ∈ (process_files o downloaded processed).attempted ∧
    b ∈ (process_files o downloaded processed).processedCk := by
  constructor
  · rw [process_files_attempted]; exact hb
  · obtain ⟨l1, l2, hsplit⟩ := List.append_of_mem hb
    rw [process_files, hsplit]
    exact (process_marks_success o l1 l2 b _ hbspark hbsave).2

theorem failure_isolation_witness :
    ("a" ∈ to_process_files ["a", "b"] [] ∧
      "b" ∈ to_process_files ["a", "b"] [] ∧
      (⟨fun _ => true, fun f => f == "a", fun _ => true, fun _ => false⟩ :
        RunOracle).sparkFails "a" = true) ∧
    ("b" ∈ (process_files
        ⟨fun _ => true, fun f => f == "a", fun _ => true, fun _ => false⟩
        ["a", "b"] []).attempted ∧
      "b" ∈ (process_files
        ⟨fun _ => true, fun f => f == "a", fun _ => true, fun _ => false⟩
        ["a", "b"] []).processedCk) :=
  ⟨⟨by decide, by decide, by decide⟩,
    failure_isolation
      ⟨fun _ => true, fun f => f == "a", fun _ => true, fun _ => false⟩
      ["a", "b"] [] "a" "b" (by decide) (by decide) (by decide) (by decide)
      (by decide) (by decide)⟩

/-- C3 counterexample: with `save_metadata` raising for file `"a"` (and
everything else succeeding), the run does not abort: the error is caught by
the per-file `except Exception` handler and the next pending file `"b"` is
still attempted and processed — contradicting the claim that a Metadata
Store write failure is fatal and uncaught in `process_files`. -/
theorem save_failure_not_fatal_cex :
    (⟨fun _ => true, fun _ => false, fun _ => true, fun f => f == "a"⟩ :
      RunOracle).saveFails "a" = true ∧
    (process_files
      ⟨fun _ => true, fun _ => false, fun _ => true, fun f => f == "a"⟩
      ["a", "b"] []).attempted = ["a", "b"] ∧
    (process_files
      ⟨fun _ => true, fun _ => false, fun _ => true, fun f => f == "a"⟩
      ["a", "b"] []).processedCk = ["a", "b"] := by
  refine ⟨by decide, by decide, by decide⟩

/-- C3 amended: a `save_metadata` failure while persisting the processed
checkpoint inside `process_files` is caught by the per-file `except
Exception` handler (line 166) and logged like any per-file error, and the
loop continues: every pending file is still attempted. -/
theorem save_failure_caught_and_continues (o : RunOracle)
    (downloaded processed : List String) (f : String)
    (hf : f ∈ to_process_files downloaded processed)
    (hsave : o.saveFails f = true) :
    (process_files o downloaded processed).attempted =
      to_process_files downloaded processed :=
  process_files_attempted o downloaded processed

theorem save_failure_caught_and_continues_witness :
    ("a" ∈ to_process_files ["a", "b"] [] ∧
      (⟨fun _ => true, fun _ => false, fun _ => true, fun f => f == "a"⟩ :
        RunOracle).saveFails "a" = true) ∧
    (process_files
        ⟨fun _ => true, fun _ => false, fun _ => true, fun f => f == "a"⟩
        ["a", "b"] []).attempted = to_process_files ["a", "b"] [] :=
  ⟨⟨by decide, by decide⟩,
    save_failure_caught_and_continues
      ⟨fun _ => true, fun _ => false, fun _ => true, fun f => f == "a"⟩
      ["a", "b"] [] "a" (by decide) (by decide)⟩

/-- C1 at its failing input: with the MongoDB bulk insert failing for file
`"f"` (no document, or only part of them, inserted — either way
`insert_many` raises), `save_to_mongodb` catches the exception itself
(line 182) and returns normally, so `process_files` appends `"f"` to
`processed_files` and persists the checkpoint: the key appears in the
Processed Set even though the Loader did not report a fully successful
load. -/
theorem processed_despite_failed_load :
    (process_files
      ⟨fun _ => true, fun _ => false, fun _ => false, fun _ => false⟩
      ["f"] []).loaded = [] ∧
    (process_files
      ⟨fun _ => true, fun _ => false, fun _ => false, fun _ => false⟩
      ["f"] []).processedCk = ["f"] := by
  refine ⟨by decide, by decide⟩

end ETL
